import Mathlib

/-!
# Verification of the M08F thermal-printer render-and-frame pipeline

A shallow embedding of `src/printer.py` (class `M08FPrinter`) and
`src/buffer.py` (class `TweetBuffer`), together with theorems settling the
specification's claims about text wrapping, rasterization, frame packing,
serialization, paper feed, the print orchestration result, and the tweet
holding buffer.

Conventions:
* Machine bytes are `Nat` values below 256; pixel darkness values are `Nat`
  grayscale levels (0 = darkest) as in PIL mode `L`.
* A 1-bit pixel is modelled as `Bool` with `true` = printer-black
  (PIL mode `1` value `0`, the value the packing loop tests with `== 0`).
* Python exceptions are modelled with `Except String`.
-/

namespace M08F

/-! ## Device constants (class attributes of `M08FPrinter`) -/

/-- `DPI = 203` — printer resolution. -/
def DPI : Nat := 203

/-- `WIDTH_MM = 190` — configured physical width in millimetres. -/
def WIDTH_MM : Nat := 190

/-- `MAX_WIDTH = int(WIDTH_MM * DPI / 25.4)`.  The Python expression truncates
the float `38570 / 25.4 ≈ 1518.504` to `1518`; we compute the same value with
exact rational arithmetic (`385700 / 254`). -/
def MAX_WIDTH : Nat := WIDTH_MM * DPI * 10 / 254

/-- `BYTES_PER_LINE = (MAX_WIDTH + 7) // 8`. -/
def BYTES_PER_LINE : Nat := (MAX_WIDTH + 7) / 8

/-- `MARGIN = 5`. -/
def MARGIN : Nat := 5

/-- `LINE_HEIGHT = 45`. -/
def LINE_HEIGHT : Nat := 45

/-- `TITLE_SPACING = 90`. -/
def TITLE_SPACING : Nat := 90

/-- `CONTENT_SPACING = 90`. -/
def CONTENT_SPACING : Nat := 90

/-! ## Chunking

Both the raster loop (`for start_y in range(0, img.height, 255)`) and the
feed loop (`chunk = min(255, remaining)`) consume a sequence in maximal
blocks of a fixed size taken from the front.  `chunksOf n l` captures that
pattern: the list of successive `take n` blocks of `l`. -/

def chunksOf (n : Nat) (l : List α) : List (List α) :=
  if h : l.length = 0 ∨ n = 0 then []
  else l.take n :: chunksOf n (l.drop n)
termination_by l.length
decreasing_by
  simp only [not_or] at h
  simp only [List.length_drop]
  omega

/-! ## 1-bit images and raster frames (`M08FPrinter._print_image`)

After thresholding, `_print_image` holds a PIL mode-`1` image of width
`MAX_WIDTH` (every image built by `_simple_text_to_image` /
`_tweet_to_image` has that width).  We model it by its height and a pixel
predicate where `true` means printer-black, i.e. PIL pixel value `0` — the
value the packing loop tests with `img.getpixel((x + bit, y)) == 0`. -/

structure Img1 where
  height : Nat
  px : Nat → Nat → Bool

/-- The scanlines of the image top-to-bottom (`y = 0` first), in the order
the loops `for start_y in range(0, img.height, 255)` /
`for y in range(start_y, start_y + lines_in_block)` visit them. -/
def imageRows (img : Img1) : List (Nat → Bool) :=
  (List.range img.height).map fun y => fun x => img.px x y

/-- The frames of one image: scanlines grouped into consecutive blocks of at
most 255 rows (`lines_in_block = min(255, img.height - start_y)`). -/
def imageFrames (img : Img1) : List (List (Nat → Bool)) :=
  chunksOf 255 (imageRows img)

/-- The `row_count` field of each frame, in emission order. -/
def frameRowCounts (img : Img1) : List Nat :=
  (imageFrames img).map List.length

/-! ## Row packing (`_print_image` inner loops)

For each scanline the code packs 8 horizontally consecutive pixels per byte:
```
for x in range(0, self.MAX_WIDTH, 8):
    byte = 0
    for bit in range(8):
        if x + bit < self.MAX_WIDTH and img.getpixel((x + bit, y)) == 0:
            byte |= (1 << (7 - bit))
    block.append(byte)
```
-/

/-- The inner `for bit in range(8)` loop: `g bit` is the guard
`x + bit < MAX_WIDTH and pixel == 0` for the byte being assembled. -/
def packByte (g : Nat → Bool) : Nat :=
  List.foldl (fun byte bit => if g bit then byte ||| (1 <<< (7 - bit)) else byte) 0
    [0, 1, 2, 3, 4, 5, 6, 7]

/-- The outer `for x in range(0, MAX_WIDTH, 8)` loop over one scanline of
width `w`, producing the `(w + 7) / 8` payload bytes of that row.  `row x`
is `true` when the pixel at column `x` is printer-black. -/
def packRow (w : Nat) (row : Nat → Bool) : List Nat :=
  (List.range ((w + 7) / 8)).map fun i =>
    packByte fun bit => decide (8 * i + bit < w) && row (8 * i + bit)

/-- Reading pixel `x` back out of a packed scanline: bit `7 - x % 8` of
byte `x / 8`, a set bit meaning printer-black. -/
def unpackRow (pay : List Nat) (x : Nat) : Bool :=
  Nat.testBit (pay.getD (x / 8) 0) (7 - x % 8)

/-- The payload of one frame: the packed scanlines of its rows,
concatenated in row-major order. -/
def framePayload (rows : List (Nat → Bool)) : List Nat :=
  (rows.map (packRow MAX_WIDTH)).flatten

/-- Row `i` of a frame payload: the `BYTES_PER_LINE`-byte slice starting at
offset `i * BYTES_PER_LINE`. -/
def payloadRow (pay : List Nat) (i : Nat) : List Nat :=
  (pay.drop (i * BYTES_PER_LINE)).take BYTES_PER_LINE

/-! ## Frame serialization (`_print_image` block assembly)

```
block = bytearray()
block += b'\x1D\x76\x30\x00'              # GS v 0 : print raster bit image
block += bytes([self.BYTES_PER_LINE, 0])  # bytes per line (little-endian)
block += bytes([lines_in_block, 0])       # lines in this block (little-endian)
```
-/

/-- The fixed raster-command opcode `GS v 0` with mode byte `0x00`. -/
def rasterOpcode : List Nat := [0x1D, 0x76, 0x30, 0x00]

/-- 2-byte little-endian encoding of a 16-bit value. -/
def le16 (v : Nat) : List Nat := [v % 256, v / 256]

/-- One raster block as assembled by `_print_image` for a group of rows:
opcode, `bytes([BYTES_PER_LINE, 0])`, `bytes([rows.length, 0])`, then the
packed scanlines in row-major order. -/
def buildBlock (rows : List (Nat → Bool)) : List Nat :=
  rasterOpcode ++ [BYTES_PER_LINE, 0] ++ [rows.length, 0] ++ framePayload rows

/-- The ordered sequence of serialized raster blocks for one image. -/
def imageBlocks (img : Img1) : List (List Nat) :=
  (imageFrames img).map buildBlock

/-- Concrete one-row all-black image used to witness `frame_serialization`. -/
def imgOne : Img1 := ⟨1, fun _ _ => true⟩

/-- Concrete 600-row all-white image used to witness `frame_splitting`:
`ceil(600/255) = 3` frames, the first full. -/
def img600 : Img1 := ⟨600, fun _ _ => false⟩

/-! ## Thresholding and inversion (`_print_image` preamble)

```
img = img.convert('L')
if self._invert_raster:
    img = ImageOps.invert(img)
img = img.point(lambda p: 0 if p < self._raster_threshold else 255)
img = img.convert('1', dither=Image.Dither.NONE)
```

The grayscale image after `convert('L')` is a grid of darkness values
`0..255`, `0` darkest. -/

structure GrayImg where
  height : Nat
  px : Nat → Nat → Nat

/-- `ImageOps.invert` on a mode-`L` image: `p ↦ 255 - p`, applied to every
pixel of the image. -/
def invertPx (p : Nat) : Nat := 255 - p

/-- The lookup table `lambda p: 0 if p < self._raster_threshold else 255`
applied by `img.point`. -/
def pointThreshold (t p : Nat) : Nat := if p < t then 0 else 255

/-- `convert('1', dither=Image.Dither.NONE)` from mode `L`: a hard cut with
no error diffusion — a value below 128 becomes `0`.  We record blackness
(`0`) as `true`. -/
def to1bitBlack (p : Nat) : Bool := decide (p < 128)

/-- The whole-image threshold stage of `_print_image`: optional inversion,
then the point lookup, then the dither-free 1-bit conversion, pointwise on
every pixel of the image. -/
def thresholdImage (invert : Bool) (t : Nat) (g : GrayImg) : Img1 where
  height := g.height
  px := fun x y =>
    to1bitBlack (pointThreshold t (if invert then invertPx (g.px x y) else g.px x y))

/-! ## Paper feed (`_feed_lines`)

```
lines = int(lines)
if lines <= 0:
    return
remaining = lines
while remaining > 0:
    chunk = min(255, remaining)
    self._write_no_delay(b'\x0A' * chunk)
    time.sleep(0.02)
    remaining -= chunk
```
-/

/-- The write payloads issued by `_feed_lines(n)`, in order: nothing for
`n ≤ 0`, otherwise `n` line-feed bytes (`0x0A`) split into consecutive
writes of `min(255, remaining)` bytes. -/
def feedWrites (n : Int) : List (List Nat) :=
  if n ≤ 0 then []
  else chunksOf 255 (List.replicate n.toNat 0x0A)

/-- All transport writes of `_print_image`: the serialized raster blocks in
order, then the paper-feed writes for the configured `feed_lines`. -/
def printImageWrites (feedLines : Int) (img : Img1) : List (List Nat) :=
  imageBlocks img ++ feedWrites feedLines

/-- Concrete 10-row all-white image used to witness `feed_after_frames`. -/
def imgTen : Img1 := ⟨10, fun _ _ => false⟩

/-! ## Print orchestration (`print_text`)

```
try:
    ...
    img = self._tweet_to_image(text)
    self._print_image(img)
    ... optional gap feed ...
    return True
except Exception as e:
    print(f"Printer error: ...")
    return False
```

Python exceptions are modelled as `Except String`: each stage either
returns a value or raises with a reason. -/

/-- The staged body of `print_text`: render the record to an image, transmit
it (`_print_image`, frames then feed), then the optional inter-tweet gap
feed.  A stage that raises short-circuits the rest. -/
def runJob (render : Except String Img1) (transmit : Img1 → Except String Unit)
    (gapFeed : Except String Unit) : Except String Unit := do
  let img ← render
  transmit img
  gapFeed

/-- `print_text`'s `try/except` wrapper: `(true, none)` when the body runs
to completion, `(false, some reason)` when any stage raises — the reason
is what `print(f"Printer error: {str(e)}")` reports. -/
def printText (render : Except String Img1) (transmit : Img1 → Except String Unit)
    (gapFeed : Except String Unit) : Bool × Option String :=
  match runJob render transmit gapFeed with
  | Except.ok _ => (true, none)
  | Except.error e => (false, some e)

/-! ## Tweet holding buffer (`TweetBuffer`, `src/buffer.py`)

`TweetBuffer` keeps fetched-but-unprinted records in
`deque(maxlen=max_size)` plus a per-user map of last-seen tweet ids.  We
model the persisted `save_state`/`load_state` side effects as identity on
the in-memory state (they only mirror it to disk). -/

/-- A buffered record: the fields `add_tweet` reads.  `id` is
`tweet.get('id')` (`none` when the key is missing). -/
structure TweetRec where
  id : Option String
  username : String

/-- `deque(maxlen=maxSize).append(a)`: append on the right, silently
evicting from the left whenever the deque would exceed `maxSize`. -/
def dequeAppend (maxSize : Nat) (l : List α) (a : α) : List α :=
  let grown := l ++ [a]
  grown.drop (grown.length - maxSize)

structure TweetBuffer where
  maxSize : Nat
  buffer : List TweetRec
  lastIds : String → Option String

/-- `TweetBuffer(max_size)` with no saved state on disk. -/
def TweetBuffer.init (maxSize : Nat) : TweetBuffer :=
  ⟨maxSize, [], fun _ => none⟩

/-- `add_tweet`: append only when the tweet has a truthy `id` that is newer
than the last seen id for its user (string comparison, as in
`tweet_id > self.last_tweet_ids[username]`). -/
def addTweet (b : TweetBuffer) (t : TweetRec) : TweetBuffer :=
  match t.id with
  | none => b
  | some tid =>
    if tid = "" then b
    else if (match b.lastIds t.username with
             | none => true
             | some last => decide (last < tid)) then
      { b with
        buffer := dequeAppend b.maxSize b.buffer t
        lastIds := fun u => if u = t.username then some tid else b.lastIds u }
    else b

/-- `get_next_tweet`: pop from the left, `None` when empty. -/
def getNextTweet (b : TweetBuffer) : Option TweetRec × TweetBuffer :=
  match b.buffer with
  | [] => (none, b)
  | t :: rest => (some t, { b with buffer := rest })

/-- `add_tweets`: `add_tweet` for each record in order. -/
def addTweets (b : TweetBuffer) (ts : List TweetRec) : TweetBuffer :=
  ts.foldl addTweet b

/-! ## Text wrapping (`_wrap_text`)

Text is modelled as `List Char` (a Python `str` of code points); a font is
modelled by its glyph metrics: `font.getbbox(s)` gives a bounding box, of
which the code uses the width `bbox[2] - bbox[0]` and height
`bbox[3] - bbox[1]`. -/

/-- Glyph metrics of a loaded font. -/
structure Font where
  widthOf : List Char → Nat
  heightOf : List Char → Nat

/-- Helper for `pySplit`: `cur` collects the (reversed) characters of the
word currently being scanned. -/
def splitAux (cur : List Char) : List Char → List (List Char)
  | [] => if cur = [] then [] else [cur.reverse]
  | c :: rest =>
    if c.isWhitespace then
      if cur = [] then splitAux [] rest
      else cur.reverse :: splitAux [] rest
    else splitAux (c :: cur) rest

/-- Python `text.split()` with no argument: the maximal runs of
non-whitespace characters, any whitespace acting as separator, with no
empty words. -/
def pySplit (text : List Char) : List (List Char) :=
  splitAux [] text

/-- `' '.join(ws)`. -/
def spaceJoin (ws : List (List Char)) : List Char :=
  List.intercalate [' '] ws

/-- The wrap width `_wrap_text` uses: `self.MAX_WIDTH - (2 * self.MARGIN)`. -/
def WRAP_WIDTH : Nat := MAX_WIDTH - 2 * MARGIN

/-- The *hyphen-free case* of the library call `textwrap.wrap(word, width=20)`:
the word cut into consecutive chunks of 20 characters, the last chunk
possibly shorter, none empty.  `textwrap`'s default `break_on_hyphens=True`
additionally breaks after hyphens, so on hyphenated words the real library
produces different (still non-empty, still at most 20-character) chunks;
the wrap theorem therefore abstracts the chunking function entirely (see
`wrapTextWith`) and `chunk20` serves only as one concrete instance. -/
def chunk20 (w : List Char) : List (List Char) :=
  chunksOf 20 w

/-- One iteration of `_wrap_text`'s `for word in words` loop.  The state is
`(lines, current_line)`.  Measuring uses
`test_line = ' '.join(current_line + [word])`; on overflow a non-empty
accumulator is flushed and the word starts a new one, while with an empty
accumulator the word is force-split: all chunks but the last are emitted
as lines and the last chunk becomes the new accumulator. -/
def wrapStep (font : Font) (s : List (List Char) × List (List Char))
    (word : List Char) : List (List Char) × List (List Char) :=
  if font.widthOf (spaceJoin (s.2 ++ [word])) ≤ WRAP_WIDTH then
    (s.1, s.2 ++ [word])
  else if s.2 ≠ [] then
    (s.1 ++ [spaceJoin s.2], [word])
  else
    (s.1 ++ (chunk20 word).dropLast,
      match (chunk20 word).getLast? with
      | some c => [c]
      | none => [])

/-- `_wrap_text(text, font)`: fold the word loop, then flush a remaining
non-empty accumulator. -/
def wrapText (font : Font) (text : List Char) : List (List Char) :=
  let res := (pySplit text).foldl (wrapStep font) ([], [])
  if res.2 ≠ [] then res.1 ++ [spaceJoin res.2] else res.1

/-- `wrapStep` with the library call `textwrap.wrap(word, width=20)`
abstracted as `split`: the code's loop body verbatim, except that the
chunking of an over-wide word is whatever `split` returns.  Instantiating
`split` with the real library function gives the program's loop; `chunk20`
is its hyphen-free special case. -/
def wrapStepWith (split : List Char → List (List Char)) (font : Font)
    (s : List (List Char) × List (List Char)) (word : List Char) :
    List (List Char) × List (List Char) :=
  if font.widthOf (spaceJoin (s.2 ++ [word])) ≤ WRAP_WIDTH then
    (s.1, s.2 ++ [word])
  else if s.2 ≠ [] then
    (s.1 ++ [spaceJoin s.2], [word])
  else
    (s.1 ++ (split word).dropLast,
      match (split word).getLast? with
      | some c => [c]
      | none => [])

/-- `_wrap_text(text, font)` with the force-split chunking abstracted as
`split` (the program is this wrapper at `split = textwrap.wrap(·, 20)`). -/
def wrapTextWith (split : List Char → List (List Char)) (font : Font)
    (text : List Char) : List (List Char) :=
  let res := (pySplit text).foldl (wrapStepWith split font) ([], [])
  if res.2 ≠ [] then res.1 ++ [spaceJoin res.2] else res.1

/-- A line the wrapper may legitimately produce: it fits the wrap width,
or it is verbatim one of the input words, or it is a force-split chunk of
one of them. -/
def GoodLine (split : List Char → List (List Char)) (font : Font)
    (ws : List (List Char)) (l : List Char) : Prop :=
  font.widthOf l ≤ WRAP_WIDTH ∨ ∃ w ∈ ws, l = w ∨ l ∈ split w

/-- Loop invariant of `_wrap_text`: every flushed line is good, and the
accumulator is empty, fits the width, or is a single word / single chunk. -/
def WrapInv (split : List Char → List (List Char)) (font : Font)
    (ws : List (List Char)) (s : List (List Char) × List (List Char)) : Prop :=
  (∀ l ∈ s.1, GoodLine split font ws l) ∧
  (s.2 = [] ∨ font.widthOf (spaceJoin s.2) ≤ WRAP_WIDTH ∨
    ∃ w ∈ ws, s.2 = [w] ∨ ∃ c ∈ split w, s.2 = [c])

/-- Glyph metrics charging 1000 dots per character, for the wrap
counterexample. -/
def cexFont : Font := ⟨fun s => 1000 * s.length, fun _ => 0⟩

/-! ## Paragraph handling (`_simple_text_to_image`) -/

/-- Helper for `splitNl`. -/
def splitNlAux (cur : List Char) : List Char → List (List Char)
  | [] => [cur.reverse]
  | c :: rest =>
    if c = '\n' then cur.reverse :: splitNlAux [] rest
    else splitNlAux (c :: cur) rest

/-- Python `text.split('\n')`: split at each newline, keeping empty
pieces (so the result always has at least one element). -/
def splitNl (text : List Char) : List (List Char) :=
  splitNlAux [] text

/-- Python `s.strip()`: drop whitespace from both ends. -/
def pyStrip (cs : List Char) : List Char :=
  ((cs.dropWhile Char.isWhitespace).reverse.dropWhile Char.isWhitespace).reverse

/-- The line list assembled by `_simple_text_to_image`: paragraphs with
content (`paragraph.strip()` truthy) contribute their wrapped lines,
blank paragraphs contribute a single empty line (kept for vertical
spacing). -/
def simpleTextLines (font : Font) (text : List Char) : List (List Char) :=
  (splitNl text).foldl
    (fun acc para =>
      if pyStrip para ≠ [] then acc ++ wrapText font para else acc ++ [[]])
    []

/-- All-zero glyph metrics, for witnesses and counterexamples. -/
def fontZero : Font := ⟨fun _ => 0, fun _ => 0⟩

/-! ## Tweet rasterization geometry (`_tweet_to_image`)

```
total_height = 700  # Increased estimate for better spacing
img = Image.new('1', (self.MAX_WIDTH, total_height), 1)
...
current_y = 20
... header, title, optional content ...
return img.crop((0, 0, self.MAX_WIDTH, max(1, current_y)))
```
-/

/-- A normalized record as `_tweet_to_image` consumes it (`hashtags` is
only echoed to the console by `print_text`, never drawn). -/
structure Tweet where
  username : List Char
  date : List Char
  title : List Char
  content : List Char

/-- The fixed canvas height `total_height = 700` the code allocates before
drawing. -/
def tweetAllocHeight : Nat := 700

/-- Advancing the vertical cursor over a block of wrapped lines:
`current_y += (bbox[3] - bbox[1]) + 15` per line. -/
def lineAdvance (font : Font) (y0 : Nat) (ls : List (List Char)) : Nat :=
  ls.foldl (fun y line => y + font.heightOf line + 15) y0

/-- The final value of `current_y` in `_tweet_to_image`: start at 20;
advance past the username/date header row plus 50; advance over the
wrapped title lines then `TITLE_SPACING * 2`; if the content is non-empty,
advance over its wrapped lines then `CONTENT_SPACING * 2`. -/
def tweetCursor (usernameFont titleFont contentFont hashtagFont : Font)
    (t : Tweet) : Nat :=
  if t.content ≠ [] then
    lineAdvance contentFont
      (lineAdvance titleFont
        (20 + max (usernameFont.heightOf ('@' :: t.username))
          (hashtagFont.heightOf t.date) + 50)
        (wrapText titleFont t.title) + TITLE_SPACING * 2)
      (wrapText contentFont t.content) + CONTENT_SPACING * 2
  else
    lineAdvance titleFont
      (20 + max (usernameFont.heightOf ('@' :: t.username))
        (hashtagFont.heightOf t.date) + 50)
      (wrapText titleFont t.title) + TITLE_SPACING * 2

/-- The dimensions of the image `_tweet_to_image` returns:
`img.crop((0, 0, MAX_WIDTH, max(1, current_y)))`. -/
def tweetImageSize (uf tf cf hf : Font) (t : Tweet) : Nat × Nat :=
  (MAX_WIDTH, max 1 (tweetCursor uf tf cf hf t))

/-- The record with zero-height metrics everywhere whose final cursor is
265, used against the fixed 700-row allocation. -/
def exTweet : Tweet := ⟨"alice".toList, "2021-01-01".toList, "x".toList, []⟩

/-- Concrete full two-slot buffer used to witness `buffer_invariant`. -/
def bufTwo : TweetBuffer :=
  ⟨2, [⟨some "1", "alice"⟩, ⟨some "2", "bob"⟩], fun _ => none⟩

/-! ## Theorems -/

theorem chunksOf_nil (n : Nat) : chunksOf n ([] : List α) = [] := by
  rw [chunksOf]; simp

theorem chunksOf_cons (n : Nat) (hn : n ≠ 0) (l : List α) (hl : l ≠ []) :
    chunksOf n l = l.take n :: chunksOf n (l.drop n) := by
  rw [chunksOf]
  simp [List.length_eq_zero, hl, hn]

/-- Concatenating the chunks gives back the original list: rows are emitted
in order and never split or duplicated. -/
theorem chunksOf_flatten (n : Nat) (hn : n ≠ 0) (l : List α) :
    (chunksOf n l).flatten = l := by
  induction l using chunksOf.induct n with
  | case1 l h =>
    rcases h with h | h
    · rw [List.length_eq_zero] at h
      subst h
      simp [chunksOf_nil]
    · exact absurd h hn
  | case2 l h ih =>
    simp only [not_or, ← List.length_eq_zero] at h
    rw [chunksOf_cons n hn l (by simpa using h.1)]
    simp [ih, List.take_append_drop]

/-- Every chunk has length at most `n`. -/
theorem chunksOf_length_le (n : Nat) (l : List α) :
    ∀ c ∈ chunksOf n l, c.length ≤ n := by
  induction l using chunksOf.induct n with
  | case1 l h =>
    intro c hc
    rw [chunksOf, dif_pos h] at hc
    simp at hc
  | case2 l h ih =>
    intro c hc
    rw [chunksOf, dif_neg h] at hc
    rcases List.mem_cons.mp hc with rfl | hc2
    · simp
    · exact ih c hc2

/-- No chunk is empty: every loop iteration consumes at least one element. -/
theorem chunksOf_ne_nil (n : Nat) (l : List α) :
    ∀ c ∈ chunksOf n l, c ≠ [] := by
  induction l using chunksOf.induct n with
  | case1 l h =>
    intro c hc
    rw [chunksOf, dif_pos h] at hc
    simp at hc
  | case2 l h ih =>
    intro c hc
    rw [chunksOf, dif_neg h] at hc
    simp only [not_or] at h
    rcases List.mem_cons.mp hc with rfl | hc2
    · intro he
      have := congrArg List.length he
      simp only [List.length_take, List.length_nil] at this
      omega
    · exact ih c hc2

/-- The number of chunks is the ceiling `⌈l.length / n⌉ = (l.length + (n-1)) / n`. -/
theorem chunksOf_count (n : Nat) (hn : n ≠ 0) (l : List α) :
    (chunksOf n l).length = (l.length + (n - 1)) / n := by
  induction l using chunksOf.induct n with
  | case1 l h =>
    rcases h with h | h
    · rw [List.length_eq_zero] at h
      subst h
      rw [chunksOf_nil]
      simp only [List.length_nil, Nat.zero_add]
      rw [Nat.div_eq_of_lt (by omega)]
    · exact absurd h hn
  | case2 l h ih =>
    simp only [not_or] at h
    rw [chunksOf_cons n hn l (by simpa [← List.length_eq_zero] using h.1)]
    simp only [List.length_cons, ih, List.length_drop]
    have hl : 0 < l.length := by omega
    have hpos : 0 < n := Nat.pos_of_ne_zero hn
    rcases le_or_lt l.length n with hle | hlt
    · have h1 : l.length - n + (n - 1) < n := by omega
      rw [Nat.div_eq_of_lt h1]
      have h2 : 1 ≤ (l.length + (n - 1)) / n :=
        (Nat.le_div_iff_mul_le hpos).mpr (by omega)
      have h3 : (l.length + (n - 1)) / n < 2 :=
        (Nat.div_lt_iff_lt_mul hpos).mpr (by omega)
      omega
    · have h4 : l.length - n + (n - 1) + n = l.length + (n - 1) := by omega
      rw [← h4, Nat.add_div_right _ hpos]

/-- Every chunk other than the last is full: it has length exactly `n`. -/
theorem chunksOf_length_eq (n : Nat) (l : List α) :
    ∀ i, i + 1 < (chunksOf n l).length → ((chunksOf n l).getD i []).length = n := by
  induction l using chunksOf.induct n with
  | case1 l h =>
    intro i hi
    rw [chunksOf, dif_pos h] at hi
    simp at hi
  | case2 l h ih =>
    intro i hi
    rw [chunksOf, dif_neg h] at hi ⊢
    match i with
    | 0 =>
      simp only [List.getD_cons_zero]
      have hrest : chunksOf n (l.drop n) ≠ [] := by
        intro he
        rw [he] at hi
        simp at hi
      have hdrop : l.drop n ≠ [] := by
        intro he
        rw [he, chunksOf_nil] at hrest
        exact hrest rfl
      have hlen : n < l.length := by
        by_contra hle
        push_neg at hle
        exact hdrop (by simp [List.drop_eq_nil_iff, hle])
      simp only [List.length_take]
      omega
    | Nat.succ j =>
      simp only [List.getD_cons_succ]
      exact ih j (by simpa using hi)

/-- When the length is a positive multiple of 255, the last 255-chunk is
itself full. -/
theorem chunksOf255_getLast (l : List α) (hdvd : l.length % 255 = 0) :
    ∀ c, (chunksOf 255 l).getLast? = some c → c.length = 255 := by
  induction l using chunksOf.induct 255 with
  | case1 l h =>
    intro c hc
    rw [chunksOf, dif_pos h] at hc
    simp at hc
  | case2 l h ih =>
    intro c hc
    simp only [not_or] at h
    rw [chunksOf, dif_neg (by simp only [not_or]; exact h)] at hc
    by_cases hd : l.drop 255 = []
    · have hle : l.length ≤ 255 := by
        rw [← List.drop_eq_nil_iff]
        exact hd
      rw [hd, chunksOf_nil, List.getLast?_singleton, Option.some.injEq] at hc
      subst hc
      simp only [List.length_take]
      omega
    · have hlen : 255 < l.length := by
        by_contra hle
        push_neg at hle
        exact hd (by simp [List.drop_eq_nil_iff, hle])
      have hrest : chunksOf 255 (l.drop 255) ≠ [] := by
        rw [chunksOf, dif_neg (by simp only [not_or, List.length_drop]; omega)]
        simp
      obtain ⟨b, bs, hbs⟩ := List.exists_cons_of_ne_nil hrest
      rw [hbs, List.getLast?_cons_cons, ← hbs] at hc
      exact ih (by simp only [List.length_drop]; omega) c hc

theorem imageRows_length (img : Img1) : (imageRows img).length = img.height := by
  simp [imageRows]

/-- The frame row counts always sum to the image height (shared by the
frame-splitting and paper-feed theorems). -/
theorem frameRowCounts_sum (img : Img1) : (frameRowCounts img).sum = img.height := by
  have hflat : (imageFrames img).flatten = imageRows img :=
    chunksOf_flatten 255 (by norm_num) (imageRows img)
  have := congrArg List.length hflat
  rw [List.length_flatten, imageRows_length] at this
  simpa [frameRowCounts, imageFrames] using this

/-- **C1.** For every 1-bit image, the rows are grouped into consecutive
frames of at most 255 rows, emitted in top-to-bottom row order: the number
of frames is `⌈height / 255⌉`, the row counts sum to the height, every
row count is at most 255, every frame but the last holds exactly 255 rows,
a short final frame occurs only when the height is not a multiple of 255,
and concatenating the frames gives back the scanlines unchanged (no row is
split across a frame boundary). -/
theorem frame_splitting (img : Img1) :
    (imageFrames img).length = (img.height + 254) / 255 ∧
    (frameRowCounts img).sum = img.height ∧
    (∀ rc ∈ frameRowCounts img, rc ≤ 255) ∧
    (∀ i, i + 1 < (imageFrames img).length →
      ((imageFrames img).getD i []).length = 255) ∧
    (∀ c, (imageFrames img).getLast? = some c → c.length < 255 →
      img.height % 255 ≠ 0) ∧
    (imageFrames img).flatten = imageRows img := by
  have hflat : (imageFrames img).flatten = imageRows img :=
    chunksOf_flatten 255 (by norm_num) (imageRows img)
  refine ⟨?_, frameRowCounts_sum img, ?_, ?_, ?_, hflat⟩
  · rw [imageFrames, chunksOf_count 255 (by norm_num), imageRows_length]
  · intro rc hrc
    rw [frameRowCounts] at hrc
    obtain ⟨c, hc, rfl⟩ := List.mem_map.mp hrc
    exact chunksOf_length_le 255 (imageRows img) c hc
  · exact chunksOf_length_eq 255 (imageRows img)
  · intro c hc hlt hdvd
    have := chunksOf255_getLast (imageRows img) (by rw [imageRows_length]; exact hdvd) c hc
    omega

theorem packByte_eq_sum (g : Nat → Bool) :
    packByte g = (bif g 0 then 128 else 0) + (bif g 1 then 64 else 0) +
      (bif g 2 then 32 else 0) + (bif g 3 then 16 else 0) + (bif g 4 then 8 else 0) +
      (bif g 5 then 4 else 0) + (bif g 6 then 2 else 0) + (bif g 7 then 1 else 0) := by
  simp only [packByte, List.foldl]
  cases h0 : g 0 <;> cases h1 : g 1 <;> cases h2 : g 2 <;> cases h3 : g 3 <;>
    cases h4 : g 4 <;> cases h5 : g 5 <;> cases h6 : g 6 <;> cases h7 : g 7 <;> rfl

theorem sum_form_testBit : ∀ (x0 x1 x2 x3 x4 x5 x6 x7 : Bool) (b : Fin 8),
    Nat.testBit ((bif x0 then 128 else 0) + (bif x1 then 64 else 0) +
      (bif x2 then 32 else 0) + (bif x3 then 16 else 0) + (bif x4 then 8 else 0) +
      (bif x5 then 4 else 0) + (bif x6 then 2 else 0) + (bif x7 then 1 else 0))
      (7 - (b : Nat)) = [x0, x1, x2, x3, x4, x5, x6, x7].get b := by
  decide

/-- Bit `7 - b` of a packed byte is exactly the guard for offset `b`: the
leftmost pixel of the group sits in the most-significant bit. -/
theorem packByte_testBit (g : Nat → Bool) (b : Nat) (hb : b < 8) :
    Nat.testBit (packByte g) (7 - b) = g b := by
  rw [packByte_eq_sum]
  have h := sum_form_testBit (g 0) (g 1) (g 2) (g 3) (g 4) (g 5) (g 6) (g 7) ⟨b, hb⟩
  rw [h]
  interval_cases b <;> rfl

theorem packRow_length (w : Nat) (row : Nat → Bool) :
    (packRow w row).length = (w + 7) / 8 := by
  simp [packRow]

theorem rangeMap_getD (n : Nat) (f : Nat → Nat) (i : Nat) (hi : i < n) :
    ((List.range n).map f).getD i 0 = f i := by
  rw [List.getD_eq_getElem?_getD]
  simp [hi]

theorem sum_const_map (c : Nat) (l : List β) :
    (l.map fun _ => c).sum = l.length * c := by
  induction l with
  | nil => simp
  | cons a t ih => simp [ih, Nat.succ_mul, Nat.add_comm]

theorem flatten_drop_const (k : Nat) (L : List (List α))
    (hk : ∀ l ∈ L, l.length = k) :
    ∀ i, (L.flatten).drop (i * k) = (L.drop i).flatten := by
  induction L with
  | nil =>
    intro i
    simp
  | cons a t ih =>
    intro i
    cases i with
    | zero => simp
    | succ j =>
      rw [List.flatten_cons]
      have ha : a.length = k := hk a (List.mem_cons_self a t)
      have hstep : (j + 1) * k = a.length + j * k := by rw [ha]; ring
      rw [hstep, List.drop_append, List.drop_succ_cons,
        ih (fun l hl => hk l (List.mem_cons_of_mem a hl)) j]

/-- Row `i` of a frame payload is exactly the packed form of row `i` of
the frame. -/
theorem payloadRow_eq (rows : List (Nat → Bool)) (i : Nat) (row0 : Nat → Bool)
    (hi : rows[i]? = some row0) :
    payloadRow (framePayload rows) i = packRow MAX_WIDTH row0 := by
  have hlt : i < rows.length := by
    by_contra hge
    rw [List.getElem?_eq_none (by omega)] at hi
    exact Option.noConfusion hi
  have hget : rows[i] = row0 := by
    have := List.getElem?_eq_getElem hlt
    rw [this, Option.some.injEq] at hi
    exact hi
  rw [payloadRow, framePayload,
    flatten_drop_const BYTES_PER_LINE (rows.map (packRow MAX_WIDTH))
      (by
        intro l hl
        obtain ⟨r, _, rfl⟩ := List.mem_map.mp hl
        exact packRow_length MAX_WIDTH r) i]
  rw [← List.map_drop, List.drop_eq_getElem_cons hlt, hget, List.map_cons,
    List.flatten_cons]
  exact List.take_left' (packRow_length MAX_WIDTH row0)

/-- **C2.** Packing a scanline of the device width is a bijective encoding:
the row occupies exactly `BYTES_PER_LINE` bytes; for every column inside
the width, unpacking (bit set ↦ black) returns exactly the pixel that was
packed, the leftmost pixel of each 8-pixel group in the most-significant
bit; every bit position at or beyond the width reads back white; and the
`BYTES_PER_LINE`-byte slice at offset `i * BYTES_PER_LINE` of a frame's
payload unpacks to row `i` of the frame, so unpacking a whole payload
reproduces exactly the thresholded image that was packed. -/
theorem pack_roundtrip (row : Nat → Bool) (x : Nat) :
    (packRow MAX_WIDTH row).length = BYTES_PER_LINE ∧
    (x < MAX_WIDTH → unpackRow (packRow MAX_WIDTH row) x = row x) ∧
    (MAX_WIDTH ≤ x → unpackRow (packRow MAX_WIDTH row) x = false) ∧
    (∀ rows : List (Nat → Bool), ∀ i, ∀ row0 : Nat → Bool, rows[i]? = some row0 →
      x < MAX_WIDTH →
      unpackRow (payloadRow (framePayload rows) i) x = row0 x) := by
  have hx8 : x % 8 < 8 := Nat.mod_lt x (by norm_num)
  have hxeq : 8 * (x / 8) + x % 8 = x := Nat.div_add_mod x 8
  have hmain : ∀ r : Nat → Bool, x < MAX_WIDTH →
      unpackRow (packRow MAX_WIDTH r) x = r x := by
    intro r hxw
    have hdiv : x / 8 < (MAX_WIDTH + 7) / 8 := by omega
    simp only [unpackRow, packRow]
    rw [rangeMap_getD _ _ _ hdiv, packByte_testBit _ _ hx8, hxeq]
    simp [hxw]
  refine ⟨packRow_length MAX_WIDTH row, hmain row, ?_, ?_⟩
  · intro hxw
    by_cases hdiv : x / 8 < (MAX_WIDTH + 7) / 8
    · simp only [unpackRow, packRow]
      rw [rangeMap_getD _ _ _ hdiv, packByte_testBit _ _ hx8, hxeq]
      simp [Nat.not_lt.mpr hxw]
    · simp only [unpackRow, List.getD_eq_getElem?_getD]
      rw [List.getElem?_eq_none (by simp only [packRow_length]; omega)]
      simp
  · intro rows i row0 hi hxw
    rw [payloadRow_eq rows i row0 hi]
    exact hmain row0 hxw

/-- Witness for **C2**: a scanline black only at column 0 round-trips at
column 0, and reads back white at column 1600 (beyond the 1518-dot width). -/
theorem pack_roundtrip_witness :
    unpackRow (packRow MAX_WIDTH (fun x => decide (x = 0))) 0 = true ∧
    unpackRow (packRow MAX_WIDTH (fun x => decide (x = 0))) 1600 = false := by
  constructor
  · have h := (pack_roundtrip (fun x => decide (x = 0)) 0).2.1 (by decide)
    simpa using h
  · exact (pack_roundtrip (fun x => decide (x = 0)) 1600).2.2.1 (by decide)

/-- **C3.** Every emitted frame is the fixed opcode, then `BYTES_PER_LINE`
as 2-byte little-endian, then the frame's `row_count` as 2-byte
little-endian, then exactly `row_count * BYTES_PER_LINE` payload bytes in
row-major order; `BYTES_PER_LINE` is `⌈MAX_WIDTH / 8⌉`, the same constant
for every frame. -/
theorem frame_serialization (img : Img1) (blk : List Nat)
    (hblk : blk ∈ imageBlocks img) :
    ∃ rows ∈ imageFrames img,
      blk = rasterOpcode ++ le16 BYTES_PER_LINE ++ le16 rows.length ++
        framePayload rows ∧
      (framePayload rows).length = rows.length * BYTES_PER_LINE ∧
      rows.length ≤ 255 ∧
      BYTES_PER_LINE = (MAX_WIDTH + 7) / 8 := by
  obtain ⟨rows, hrows, rfl⟩ := List.mem_map.mp hblk
  have hle : rows.length ≤ 255 := chunksOf_length_le 255 (imageRows img) rows hrows
  refine ⟨rows, hrows, ?_, ?_, hle, rfl⟩
  · rw [buildBlock]
    have h1 : [BYTES_PER_LINE, 0] = le16 BYTES_PER_LINE := by decide
    have h2 : [rows.length, 0] = le16 rows.length := by
      rw [le16, Nat.mod_eq_of_lt (by omega), Nat.div_eq_of_lt (by omega)]
    rw [h1, h2]
  · rw [framePayload, List.length_flatten, List.map_map]
    have hmap : (List.map (List.length ∘ packRow MAX_WIDTH) rows) =
        List.map (fun _ => BYTES_PER_LINE) rows := by
      apply List.map_congr_left
      intro r _
      simp [Function.comp, packRow_length, BYTES_PER_LINE]
    rw [hmap, sum_const_map]

/-- Witness for **C3** at a one-row image: its single block decomposes as
opcode, little-endian `BYTES_PER_LINE`, little-endian row count, payload. -/
theorem frame_serialization_witness :
    ∃ rows ∈ imageFrames imgOne,
      buildBlock ((imageRows imgOne).take 255) =
        rasterOpcode ++ le16 BYTES_PER_LINE ++ le16 rows.length ++
          framePayload rows ∧
      (framePayload rows).length = rows.length * BYTES_PER_LINE := by
  have hlen1 : (imageRows imgOne).length = 1 := by rw [imageRows_length]; rfl
  have hne : imageRows imgOne ≠ [] := by
    intro he
    rw [he] at hlen1
    simp at hlen1
  have hd : (imageRows imgOne).drop 255 = [] := by
    rw [List.drop_eq_nil_iff, hlen1]
    norm_num
  have hmem : buildBlock ((imageRows imgOne).take 255) ∈ imageBlocks imgOne := by
    rw [imageBlocks, imageFrames, chunksOf_cons 255 (by norm_num) _ hne, hd, chunksOf_nil]
    simp
  obtain ⟨rows, h1, h2, h3, _⟩ := frame_serialization imgOne _ hmem
  exact ⟨rows, h1, h2, h3⟩

/-- Witness for **C1** at a 600-row image: three frames, the first holding
exactly 255 rows, the row counts summing to 600. -/
theorem frame_splitting_witness :
    (imageFrames img600).length = 3 ∧
    ((imageFrames img600).getD 0 []).length = 255 ∧
    (frameRowCounts img600).sum = 600 := by
  have h := frame_splitting img600
  refine ⟨?_, ?_, h.2.1⟩
  · rw [h.1]; rfl
  · exact h.2.2.2.1 0 (by rw [h.1]; decide)

/-- **C6.** Thresholding and optional inversion act on the whole image,
pixel by pixel: the height is unchanged, and each output pixel is black
exactly when its (inverted, if `invert_raster` is set) darkness value is
below the configured threshold — a hard cut with no dithering. -/
theorem threshold_pointwise (invert : Bool) (t : Nat) (g : GrayImg) (x y : Nat) :
    (thresholdImage invert t g).height = g.height ∧
    (thresholdImage invert t g).px x y =
      decide ((if invert then 255 - g.px x y else g.px x y) < t) := by
  refine ⟨rfl, ?_⟩
  simp only [thresholdImage, invertPx, pointThreshold, to1bitBlack]
  by_cases h : (if invert then 255 - g.px x y else g.px x y) < t
  · simp [h]
  · simp [h]

/-- **C8 counterexample.** With `feed_lines = 300` the feed is emitted as
*two* writes (255 + 45 line feeds), not as exactly one paper-feed command
carrying a clamped line count. -/
theorem feed_single_command_cex : (feedWrites 300).length = 2 := by
  rw [feedWrites, if_neg (by norm_num), chunksOf_count 255 (by norm_num)]
  rw [List.length_replicate]
  rfl

/-- **C8 (amended).** After all raster blocks of a job, the paper feed for a
configured count `n` is emitted: nothing when `n ≤ 0`, otherwise exactly
`⌈n / 255⌉` consecutive writes consisting only of line-feed bytes, each
carrying between 1 and 255 of them, together carrying exactly `n` (the
count is chunked, not clamped); the feed bytes come after every frame and
leave the frame row counts (which still sum to the image height)
untouched. -/
theorem feed_after_frames (feedLines : Int) (img : Img1) :
    printImageWrites feedLines img = imageBlocks img ++ feedWrites feedLines ∧
    (feedLines ≤ 0 → feedWrites feedLines = []) ∧
    (0 < feedLines →
      ((feedWrites feedLines).map List.length).sum = feedLines.toNat ∧
      (feedWrites feedLines).length = (feedLines.toNat + 254) / 255 ∧
      (∀ wpay ∈ feedWrites feedLines,
        1 ≤ wpay.length ∧ wpay.length ≤ 255 ∧ ∀ byt ∈ wpay, byt = 0x0A)) ∧
    (frameRowCounts img).sum = img.height := by
  refine ⟨rfl, ?_, ?_, frameRowCounts_sum img⟩
  · intro hle
    rw [feedWrites, if_pos hle]
  · intro hpos
    have hneg : ¬feedLines ≤ 0 := by omega
    refine ⟨?_, ?_, ?_⟩
    · rw [feedWrites, if_neg hneg]
      have hflat := chunksOf_flatten 255 (by norm_num)
        (List.replicate feedLines.toNat 0x0A)
      have hlen := congrArg List.length hflat
      rw [List.length_flatten, List.length_replicate] at hlen
      exact hlen
    · rw [feedWrites, if_neg hneg, chunksOf_count 255 (by norm_num),
        List.length_replicate]
    · intro wpay hw
      rw [feedWrites, if_neg hneg] at hw
      refine ⟨?_, chunksOf_length_le 255 _ wpay hw, ?_⟩
      · have hne := chunksOf_ne_nil 255 _ wpay hw
        cases wpay with
        | nil => exact absurd rfl hne
        | cons a as => simp
      · intro byt hb
        have hmem : byt ∈ (chunksOf 255 (List.replicate feedLines.toNat 0x0A)).flatten :=
          List.mem_flatten.mpr ⟨wpay, hw, hb⟩
        rw [chunksOf_flatten 255 (by norm_num)] at hmem
        exact List.eq_of_mem_replicate hmem

/-- Witness for amended **C8**: the default `feed_lines = 3` yields exactly
`⌈3 / 255⌉ = 1` feed write carrying 3 line feeds in total, and a
non-positive count yields no feed write at all. -/
theorem feed_after_frames_witness :
    ((feedWrites 3).map List.length).sum = 3 ∧
    (feedWrites 3).length = 1 ∧
    feedWrites (-1) = [] := by
  refine ⟨?_, ?_, (feed_after_frames (-1) imgTen).2.1 (by norm_num)⟩
  · have h := ((feed_after_frames 3 imgTen).2.2.1 (by norm_num)).1
    simpa using h
  · have h2 := ((feed_after_frames 3 imgTen).2.2.1 (by norm_num)).2.1
    rw [h2]
    rfl

/-- **C9.** `print_text` returns a boolean outcome: `true` exactly when all
stages succeed; a failing stage makes it return `false` as a value (no
exception escapes) with the failure reason reported; a render failure
aborts the job before the later stages can influence the result. -/
theorem print_text_result (render : Except String Img1)
    (transmit : Img1 → Except String Unit) (gapFeed : Except String Unit) :
    ((printText render transmit gapFeed).1 = true ↔
      runJob render transmit gapFeed = Except.ok ()) ∧
    (∀ e, runJob render transmit gapFeed = Except.error e →
      printText render transmit gapFeed = (false, some e)) ∧
    (∀ e, render = Except.error e →
      printText render transmit gapFeed = (false, some e)) ∧
    (∀ img, render = Except.ok img → transmit img = Except.ok () →
      gapFeed = Except.ok () → printText render transmit gapFeed = (true, none)) := by
  refine ⟨?_, ?_, ?_, ?_⟩
  · cases hrun : runJob render transmit gapFeed with
    | ok u => cases u; simp [printText, hrun]
    | error e => simp [printText, hrun]
  · intro e hrun
    simp [printText, hrun]
  · intro e hrender
    have hrun : runJob render transmit gapFeed = Except.error e := by
      rw [runJob, hrender]
      rfl
    simp [printText, hrun]
  · intro img hrender htransmit hgap
    have hrun : runJob render transmit gapFeed = Except.ok () := by
      simp [runJob, hrender, htransmit, hgap, Bind.bind, Except.bind]
    simp [printText, hrun]

/-- Witness for **C9**: a concrete render failure is reported as
`(false, some reason)`, and an all-successful job as `(true, none)`. -/
theorem print_text_result_witness :
    printText (Except.error "printer unplugged") (fun _ => Except.ok ())
      (Except.ok ()) = (false, some "printer unplugged") ∧
    printText (Except.ok imgTen) (fun _ => Except.ok ()) (Except.ok ()) =
      (true, none) := by
  constructor
  · exact (print_text_result (Except.error "printer unplugged")
      (fun _ => Except.ok ()) (Except.ok ())).2.2.1 "printer unplugged" rfl
  · exact (print_text_result (Except.ok imgTen) (fun _ => Except.ok ())
      (Except.ok ())).2.2.2 imgTen rfl rfl rfl

theorem dequeAppend_length_le (maxSize : Nat) (l : List α) (a : α)
    (h : l.length ≤ maxSize) : (dequeAppend maxSize l a).length ≤ maxSize := by
  simp only [dequeAppend, List.length_drop, List.length_append, List.length_cons,
    List.length_nil]
  omega

theorem addTweet_maxSize (b : TweetBuffer) (t : TweetRec) :
    (addTweet b t).maxSize = b.maxSize := by
  rw [addTweet]
  cases t.id with
  | none => rfl
  | some tid =>
    by_cases h1 : tid = ""
    · simp [h1]
    · simp only [h1, if_false]
      split <;> rfl

theorem addTweet_length_le (b : TweetBuffer) (t : TweetRec)
    (h : b.buffer.length ≤ b.maxSize) :
    (addTweet b t).buffer.length ≤ b.maxSize := by
  rw [addTweet]
  cases t.id with
  | none => exact h
  | some tid =>
    by_cases h1 : tid = ""
    · simpa [h1] using h
    · simp only [h1, if_false]
      split
      · exact dequeAppend_length_le b.maxSize b.buffer t h
      · exact h

theorem addTweets_length_le (ts : List TweetRec) (b : TweetBuffer)
    (h : b.buffer.length ≤ b.maxSize) :
    (addTweets b ts).buffer.length ≤ (addTweets b ts).maxSize := by
  induction ts generalizing b with
  | nil => exact h
  | cons t rest ih =>
    rw [addTweets, List.foldl_cons]
    exact ih (addTweet b t) (by rw [addTweet_maxSize]; exact addTweet_length_le b t h)

/-- **C10.** The holding buffer never exceeds `max_size` under any of its
operations; appending to a full buffer silently evicts the oldest record
(the new record always lands at the back, a non-full buffer grows by plain
append); and removal is FIFO: `get_next_tweet` yields the front record —
`None` exactly when the buffer is empty — leaving the rest in order. -/
theorem buffer_invariant (n : Nat) (b : TweetBuffer) (t : TweetRec) (ts : List TweetRec) :
    (TweetBuffer.init n).buffer.length ≤ (TweetBuffer.init n).maxSize ∧
    (b.buffer.length ≤ b.maxSize → (addTweet b t).buffer.length ≤ b.maxSize) ∧
    (b.buffer.length ≤ b.maxSize →
      (addTweets b ts).buffer.length ≤ (addTweets b ts).maxSize) ∧
    ((getNextTweet b).2.buffer.length ≤ b.buffer.length) ∧
    (b.buffer.length = b.maxSize → b.buffer ≠ [] →
      dequeAppend b.maxSize b.buffer t = b.buffer.tail ++ [t]) ∧
    (b.buffer.length < b.maxSize →
      dequeAppend b.maxSize b.buffer t = b.buffer ++ [t]) ∧
    ((getNextTweet b).1 = b.buffer.head?) ∧
    ((getNextTweet b).1 = none ↔ b.buffer = []) ∧
    ((getNextTweet b).2.buffer = b.buffer.tail) := by
  refine ⟨by simp [TweetBuffer.init], addTweet_length_le b t,
    addTweets_length_le ts b, ?_, ?_, ?_, ?_, ?_, ?_⟩
  · cases hb : b.buffer with
    | nil => simp [getNextTweet, hb]
    | cons x rest => simp [getNextTweet, hb]
  · intro hfull hne
    rw [dequeAppend]
    simp only [List.length_append, List.length_cons, List.length_nil, hfull]
    have h1 : b.maxSize + 0 + 1 - b.maxSize = 1 := by omega
    rw [h1, List.drop_append_of_le_length (by
      have := List.length_pos.mpr hne
      omega), List.drop_one]
  · intro hlt
    rw [dequeAppend]
    simp only [List.length_append, List.length_cons, List.length_nil]
    have h1 : b.buffer.length + 0 + 1 - b.maxSize = 0 := by omega
    rw [h1, List.drop_zero]
  · cases hb : b.buffer with
    | nil => simp [getNextTweet, hb]
    | cons x rest => simp [getNextTweet, hb]
  · cases hb : b.buffer with
    | nil => simp [getNextTweet, hb]
    | cons x rest => simp [getNextTweet, hb]
  · cases hb : b.buffer with
    | nil => simp [getNextTweet, hb]
    | cons x rest => simp [getNextTweet, hb]

theorem spaceJoin_singleton (w : List Char) : spaceJoin [w] = w := by
  simp [spaceJoin, List.intercalate]

/-- `_wrap_text` as shipped is the abstract wrapper instantiated with the
hyphen-free chunking model. -/
theorem wrapText_eq_wrapTextWith (font : Font) (text : List Char) :
    wrapText font text = wrapTextWith chunk20 font text := rfl

theorem wrapStep_inv (split : List Char → List (List Char)) (font : Font)
    (ws : List (List Char)) (word : List Char) (hw : word ∈ ws)
    (s : List (List Char) × List (List Char)) (hs : WrapInv split font ws s) :
    WrapInv split font ws (wrapStepWith split font s word) := by
  obtain ⟨hlines, hcur⟩ := hs
  rw [wrapStepWith]
  by_cases hfit : font.widthOf (spaceJoin (s.2 ++ [word])) ≤ WRAP_WIDTH
  · rw [if_pos hfit]
    exact ⟨hlines, Or.inr (Or.inl hfit)⟩
  · rw [if_neg hfit]
    by_cases hne : s.2 ≠ []
    · rw [if_pos hne]
      refine ⟨?_, Or.inr (Or.inr ⟨word, hw, Or.inl rfl⟩)⟩
      intro l hl
      rcases List.mem_append.mp hl with hl1 | hl2
      · exact hlines l hl1
      · rw [List.mem_singleton] at hl2
        subst hl2
        rcases hcur with h0 | hwidth | ⟨w, hwmem, hcase⟩
        · exact absurd h0 hne
        · exact Or.inl hwidth
        · rcases hcase with heq | ⟨c, hcmem, heq⟩ <;> rw [heq, spaceJoin_singleton]
          · exact Or.inr ⟨w, hwmem, Or.inl rfl⟩
          · exact Or.inr ⟨w, hwmem, Or.inr hcmem⟩
    · rw [if_neg hne]
      constructor
      · intro l hl
        rcases List.mem_append.mp hl with hl1 | hl2
        · exact hlines l hl1
        · exact Or.inr ⟨word, hw,
            Or.inr ((List.dropLast_sublist (split word)).subset hl2)⟩
      · cases hlast : (split word).getLast? with
        | none => exact Or.inl rfl
        | some c =>
          refine Or.inr (Or.inr ⟨word, hw, Or.inr ⟨c, ?_, rfl⟩⟩)
          obtain ⟨hne2, heq⟩ :=
            List.mem_getLast?_eq_getLast (Option.mem_def.mpr hlast)
          rw [heq]
          exact List.getLast_mem hne2

theorem wrapFold_inv (split : List Char → List (List Char)) (font : Font)
    (ws : List (List Char)) :
    ∀ ws' : List (List Char), (∀ w ∈ ws', w ∈ ws) →
      ∀ s, WrapInv split font ws s →
        WrapInv split font ws (ws'.foldl (wrapStepWith split font) s) := by
  intro ws'
  induction ws' with
  | nil => intro _ s hs; exact hs
  | cons w rest ih =>
    intro hsub s hs
    rw [List.foldl_cons]
    exact ih (fun x hx => hsub x (List.mem_cons_of_mem w hx)) _
      (wrapStep_inv split font ws w (hsub w (List.mem_cons_self w rest)) s hs)

/-- **C4 (amended).** `_wrap_text` delegates force-splitting to
`textwrap.wrap(word, width=20)`; with that chunking function abstracted as
`split`, every line the greedy wrapper produces either fits the wrap width
or is a single whitespace-free token: an input word (in particular, a word
wider than the wrap width that overflows a *non-empty* accumulator is
flushed whole, never force-split) or one of the word's chunks — all but
the last chunk are emitted as standalone lines and the last is carried
forward.  The classification holds for *every* chunking function, hence in
particular for `textwrap`'s hyphen-aware one.  Moreover, whenever a word's
chunks are all non-empty — which `textwrap.wrap` guarantees — the word
remaining after each emitted chunk strictly decreases. -/
theorem wrap_width (split : List Char → List (List Char)) (font : Font)
    (text : List Char) :
    (∀ l ∈ wrapTextWith split font text,
      font.widthOf l ≤ WRAP_WIDTH ∨
        ∃ w ∈ pySplit text, l = w ∨ l ∈ split w) ∧
    (∀ w : List Char, (∀ c ∈ split w, c ≠ []) → ∀ k, k < (split w).length →
      (((split w).drop (k + 1)).flatten).length <
        (((split w).drop k).flatten).length) := by
  constructor
  · intro l hl
    have hinv := wrapFold_inv split font (pySplit text) (pySplit text)
      (fun _ h => h) ([], []) ⟨by simp, Or.inl rfl⟩
    simp only [wrapTextWith] at hl
    by_cases hne : ((pySplit text).foldl (wrapStepWith split font) ([], [])).2 ≠ []
    · rw [if_pos hne] at hl
      rcases List.mem_append.mp hl with h1 | h2
      · exact hinv.1 l h1
      · rw [List.mem_singleton] at h2
        subst h2
        rcases hinv.2 with h0 | hwidth | ⟨w, hwm, hcase⟩
        · exact absurd h0 hne
        · exact Or.inl hwidth
        · rcases hcase with heq | ⟨c, hcm, heq⟩ <;> rw [heq, spaceJoin_singleton]
          · exact Or.inr ⟨w, hwm, Or.inl rfl⟩
          · exact Or.inr ⟨w, hwm, Or.inr hcm⟩
    · rw [if_neg hne] at hl
      exact hinv.1 l hl
  · intro w hne k hk
    rw [List.drop_eq_getElem_cons hk, List.flatten_cons, List.length_append]
    have hpos : 0 < (split w)[k].length :=
      List.length_pos.mpr (hne _ (List.getElem_mem hk))
    omega

/-- **C4 counterexample.** Under `cexFont` the 21-character word overflows
while the accumulator holds `"a"`, so it is flushed verbatim as a line of
width 21000 > `WRAP_WIDTH` — and with 21 characters it cannot be a
force-split chunk (`textwrap.wrap(·, 20)` never emits a piece longer than
its width): the claimed bound fails for a line that is not a force-split
chunk.  In this run the force-split branch never executes, so the trace is
the program's regardless of the chunking function. -/
theorem wrap_width_cex :
    "bbbbbbbbbbbbbbbbbbbbb".toList ∈
      wrapText cexFont "a bbbbbbbbbbbbbbbbbbbbb".toList ∧
    ¬(cexFont.widthOf "bbbbbbbbbbbbbbbbbbbbb".toList ≤ WRAP_WIDTH) ∧
    20 < "bbbbbbbbbbbbbbbbbbbbb".toList.length := by
  refine ⟨by decide, by decide, by decide⟩

/-- Witness for amended **C4**, instantiating the abstract chunking with
the concrete function `fun w => [w]`: a one-word text that fits produces
only good lines, and under non-empty chunks the remainder strictly
decreases. -/
theorem wrap_width_witness :
    (cexFont.widthOf "a".toList ≤ WRAP_WIDTH ∨
      ∃ w ∈ pySplit "a".toList, "a".toList = w ∨ "a".toList ∈ [w]) ∧
    (([("ab".toList)].drop 1).flatten).length <
      (([("ab".toList)].drop 0).flatten).length :=
  ⟨(wrap_width (fun w => [w]) cexFont "a".toList).1 "a".toList (by decide),
    (wrap_width (fun w => [w]) cexFont "ab".toList).2 "ab".toList (by decide)
      0 (by decide)⟩

theorem whitespace_foldl (font : Font) (ps : List (List Char))
    (acc : List (List Char)) (h : ∀ p ∈ ps, pyStrip p = []) :
    ps.foldl (fun acc para =>
      if pyStrip para ≠ [] then acc ++ wrapText font para else acc ++ [[]]) acc =
    acc ++ List.replicate ps.length [] := by
  induction ps generalizing acc with
  | nil => simp
  | cons p rest ih =>
    rw [List.foldl_cons, if_neg (by simp [h p (List.mem_cons_self p rest)])]
    rw [ih _ (fun q hq => h q (List.mem_cons_of_mem p hq))]
    simp [List.replicate_succ]

theorem splitNlAux_length (cs : List Char) :
    ∀ cur, 1 ≤ (splitNlAux cur cs).length := by
  induction cs with
  | nil => intro cur; simp [splitNlAux]
  | cons c rest ih =>
    intro cur
    rw [splitNlAux]
    by_cases hc : c = '\n'
    · simp [hc]
    · simp only [hc, if_false]
      exact ih _

/-- **C5.** The empty string wraps to exactly one empty line, and text
whose paragraphs are all blank (whitespace-only text) contributes one
zero-text line per paragraph — at least one line, never none. -/
theorem empty_and_whitespace_lines (font : Font) (text : List Char)
    (hws : ∀ p ∈ splitNl text, pyStrip p = []) :
    simpleTextLines font [] = [[]] ∧
    simpleTextLines font text = List.replicate (splitNl text).length [] ∧
    1 ≤ (splitNl text).length := by
  refine ⟨?_, ?_, splitNlAux_length text []⟩
  · rw [simpleTextLines, whitespace_foldl font _ [] (by decide)]
    rfl
  · rw [simpleTextLines, whitespace_foldl font _ [] hws]
    simp

/-- Witness for **C5**: a whitespace-only text (one space, one tab) yields
exactly one empty line. -/
theorem empty_and_whitespace_lines_witness :
    simpleTextLines fontZero (" \t".toList) = [[]] := by
  have h := (empty_and_whitespace_lines fontZero (" \t".toList) (by decide)).2.1
  rw [h]
  rfl

theorem lineAdvance_ge (font : Font) (ls : List (List Char)) :
    ∀ y0, y0 ≤ lineAdvance font y0 ls := by
  induction ls with
  | nil =>
    intro y0
    simp [lineAdvance]
  | cons l rest ih =>
    intro y0
    rw [lineAdvance, List.foldl_cons]
    exact le_trans (by omega) (ih (y0 + font.heightOf l + 15))

/-- **C7 counterexample.** The canvas `_tweet_to_image` allocates is the
fixed 700-row guess, not the final cursor value: with zero glyph metrics
and a one-word title the computed cursor is 265 ≠ 700. -/
theorem tweet_alloc_cex :
    tweetCursor fontZero fontZero fontZero fontZero exTweet = 265 ∧
    tweetAllocHeight ≠ tweetCursor fontZero fontZero fontZero fontZero exTweet := by
  refine ⟨by decide, by decide⟩

/-- **C7 (amended).** `_tweet_to_image` draws on a fixed 700-row canvas
(content past row 700 is clipped) and then crops: the returned image has
width `MAX_WIDTH` and height `max 1 current_y`, which always equals the
computed cursor value (the cursor starts at 20 and only grows, so it is at
least 70) — in particular the height is at least 1. -/
theorem tweet_image_size (uf tf cf hf : Font) (t : Tweet) :
    tweetAllocHeight = 700 ∧
    (tweetImageSize uf tf cf hf t).1 = MAX_WIDTH ∧
    (tweetImageSize uf tf cf hf t).2 = tweetCursor uf tf cf hf t ∧
    70 ≤ tweetCursor uf tf cf hf t ∧
    1 ≤ (tweetImageSize uf tf cf hf t).2 := by
  have hge : 70 ≤ tweetCursor uf tf cf hf t := by
    rw [tweetCursor]
    split
    · have h2 := lineAdvance_ge tf (wrapText tf t.title)
        (20 + max (uf.heightOf ('@' :: t.username)) (hf.heightOf t.date) + 50)
      have h3 := lineAdvance_ge cf (wrapText cf t.content)
        (lineAdvance tf
          (20 + max (uf.heightOf ('@' :: t.username)) (hf.heightOf t.date) + 50)
          (wrapText tf t.title) + TITLE_SPACING * 2)
      omega
    · have h2 := lineAdvance_ge tf (wrapText tf t.title)
        (20 + max (uf.heightOf ('@' :: t.username)) (hf.heightOf t.date) + 50)
      omega
  refine ⟨rfl, rfl, ?_, hge, ?_⟩
  · show max 1 (tweetCursor uf tf cf hf t) = tweetCursor uf tf cf hf t
    exact Nat.max_eq_right (by omega)
  · show 1 ≤ max 1 (tweetCursor uf tf cf hf t)
    exact Nat.le_max_left 1 _

/-- Witness for **C10**: appending to the full two-record buffer evicts the
oldest record, and popping returns the front record. -/
theorem buffer_invariant_witness :
    dequeAppend bufTwo.maxSize bufTwo.buffer ⟨some "3", "carol"⟩ =
      [⟨some "2", "bob"⟩, ⟨some "3", "carol"⟩] ∧
    (getNextTweet bufTwo).1 = some ⟨some "1", "alice"⟩ := by
  constructor
  · have h := (buffer_invariant 0 bufTwo ⟨some "3", "carol"⟩ []).2.2.2.2.1
      rfl (by simp [bufTwo])
    rw [h]
    rfl
  · have h := (buffer_invariant 0 bufTwo ⟨some "3", "carol"⟩ []).2.2.2.2.2.2.1
    rw [h]
    rfl

end M08F
